import Mathlib

/-!
Shallow embedding of `jules-scratch/verification/verify_profile_page.py`.

The script drives a headless Chromium browser (via Playwright's sync API)
through a fixed sequence of UI interactions: navigate to the login page,
fill in the credentials, click "Sign In", assert the URL matches
`.*/dashboard`, open the account menu, click the "Profile" menu item,
assert the URL matches `.*/profile`, assert the "My Profile" heading is
visible, and take a screenshot.  `main` wraps this in
`with sync_playwright() as p:` around a `chromium.launch` / `new_page` /
`verify_profile_page` / `browser.close` sequence.

The embedding models the script body as a list of atomic operations
(`Step`), executed in order against an external application modelled as an
oracle (`Env`) that decides whether each interaction succeeds and what URL
the page is at when a URL assertion runs.  URL assertions are interpreted
through an executable model of Python `re` search for the two patterns of
the form `".*" ++ literal` that occur in the source.  The screenshot call
is the only operation that touches the file system, modelled as a map from
path strings to optional file contents.
-/

/-- One atomic Playwright operation performed by `verify_profile_page`.
`expectUrl` and `expectHeadingVisible` are the polling assertions
(`expect(page).to_have_url(...)`, `expect(...).to_be_visible()`); the
remaining constructors are the locator interactions. -/
inductive Step where
  | goto (url : String)
  | fillByLabel (label value : String)
  | clickByRole (role name : String)
  | clickByLabel (label : String)
  | expectUrl (pattern : String)
  | expectHeadingVisible (name : String)
  | screenshot (path : String) (full_page : Bool)
deriving DecidableEq, Repr

/-- The call `page.screenshot(path=...)` in the source passes only `path`;
the `full_page` keyword argument is omitted, and its Playwright default is
`False` (viewport-only capture). -/
def page_screenshot (path : String) : Step :=
  Step.screenshot path false

/-- The body of `verify_profile_page` (source lines 10-33), as the exact
ordered list of atomic operations it performs. -/
def verify_profile_page : List Step :=
  [ Step.goto "http://localhost:3000/admin/login"
  , Step.fillByLabel "Email Address" "admin@gorectus.local"
  , Step.fillByLabel "Password" "admin123"
  , Step.clickByRole "button" "Sign In"
  , Step.expectUrl ".*/dashboard"
  , Step.clickByLabel "account of current user"
  , Step.clickByRole "menuitem" "Profile"
  , Step.expectUrl ".*/profile"
  , Step.expectHeadingVisible "My Profile"
  , page_screenshot "jules-scratch/verification/profile_page.png" ]

/-- Python regex `.` matches any character except a newline (no DOTALL flag
is set in the source). -/
def dotB (c : Char) : Bool := c != '\n'

/-- Check that `L` is a starting segment of the second list (the literal
part of a pattern matching at the current position). -/
def startsWithL : List Char → List Char → Bool
  | [], _ => true
  | _ :: _, [] => false
  | a :: as, b :: bs => a == b && startsWithL as bs

/-- Anchored match (Python `re.match`) of the pattern `".*" ++ L` against
`m`: either `.*` consumes nothing and `L` must match here, or `.` consumes
one non-newline character and matching continues. -/
def reMatchDotStarLit (L : List Char) : List Char → Bool
  | [] => startsWithL L []
  | c :: rest => startsWithL L (c :: rest) || (dotB c && reMatchDotStarLit L rest)

/-- Unanchored search (Python `re.search`, which is what Playwright's
`to_have_url` applies to a compiled regex: the pattern is tested against
the URL without anchors) of the pattern `".*" ++ L` against `s`: try an
anchored match at every start position. -/
def reSearchDotStarLit (L : List Char) : List Char → Bool
  | [] => reMatchDotStarLit L []
  | c :: rest => reMatchDotStarLit L (c :: rest) || reSearchDotStarLit L rest

/-- Both regex sources in the script (`".*/dashboard"`, `".*/profile"`)
consist of `".*"` followed by a literal with no metacharacters; this
extracts the literal part. -/
def dotStarLit (pattern : String) : List Char :=
  pattern.toList.drop 2

/-- The external application and filesystem behaviour the script runs
against. `ok i s` says whether interaction (or visibility-assertion) step
`s` at position `i` succeeds within its timeout; `pageUrl i` is the URL the
page has settled at when step `i` runs (a URL assertion succeeds exactly
when this URL matches its pattern within the timeout); `shot i` is the
image content produced if the screenshot at position `i` is taken. -/
structure Env where
  ok : Nat → Step → Bool
  pageUrl : Nat → String
  shot : Nat → Nat

/-- File system state: content (if any) stored at each path. -/
abbrev Fs := String → Option Nat

/-- Whether step `s` at position `i` completes successfully.  A URL
assertion succeeds exactly when the page URL matches the compiled pattern
(regex search); every other operation's outcome is decided by the
application oracle. -/
def stepSucceeds (env : Env) (i : Nat) : Step → Bool
  | Step.expectUrl pattern => reSearchDotStarLit (dotStarLit pattern) (env.pageUrl i).toList
  | s => env.ok i s

/-- Effect of a completed step on the file system: only the screenshot call
writes (to its path, unconditionally overwriting); no other operation
touches the file system. -/
def applyStep (env : Env) (i : Nat) (s : Step) (fs : Fs) : Fs :=
  match s with
  | Step.screenshot p _ => fun q => if q = p then some (env.shot i) else fs q
  | _ => fs

/-- Whether a step is the screenshot call. -/
def isShot : Step → Bool
  | Step.screenshot _ _ => true
  | _ => false

/-- Result of running a list of steps: the steps that completed (in order),
the final file system, and whether every step completed. -/
structure Outcome where
  completed : List Step
  files : Fs
  passed : Bool

/-- Sequential execution: each step runs only after the previous one
completed; the first failing step stops the run (its error propagates, no
handler exists anywhere in the script). -/
def runFrom (env : Env) : Nat → List Step → Fs → Outcome
  | _, [], fs => ⟨[], fs, true⟩
  | i, s :: rest, fs =>
    if stepSucceeds env i s then
      let o := runFrom env (i + 1) rest (applyStep env i s fs)
      ⟨s :: o.completed, o.files, o.passed⟩
    else ⟨[], fs, false⟩

/-- A full run of `verify_profile_page` from an initial file system. -/
def runVerify (env : Env) (fs : Fs) : Outcome :=
  runFrom env 0 verify_profile_page fs

/-- Process exit status of `main`: `verify_profile_page` is called with no
surrounding try/except, so an uncaught exception terminates the process
with a non-zero status and full completion exits zero. -/
def mainExit (env : Env) (fs : Fs) : Nat :=
  if (runVerify env fs).passed then 0 else 1

/-- The step at position `i` of the script. -/
def stepAt (i : Nat) : Step :=
  verify_profile_page.getD i (Step.goto "")

/-- Every step of the script succeeds under `env`. -/
def allStepsSucceed (env : Env) : Prop :=
  ∀ i, i < verify_profile_page.length → stepSucceeds env i (stepAt i) = true

/-- A successful `startsWithL` is exactly a decomposition `s = L ++ t`. -/
theorem startsWithL_iff (L : List Char) : ∀ s : List Char,
    startsWithL L s = true ↔ ∃ t, s = L ++ t := by
  induction L with
  | nil =>
    intro s
    simp [startsWithL]
  | cons a as ih =>
    intro s
    cases s with
    | nil =>
      simp [startsWithL]
    | cons b bs =>
      simp only [startsWithL, Bool.and_eq_true, beq_iff_eq, ih bs]
      constructor
      · rintro ⟨rfl, t, rfl⟩
        exact ⟨t, rfl⟩
      · rintro ⟨t, h⟩
        cases h
        exact ⟨rfl, t, rfl⟩

/-- An anchored match of `".*" ++ L` yields an occurrence of `L` in `m`. -/
theorem reMatchDotStarLit_occurrence (L : List Char) : ∀ m : List Char,
    reMatchDotStarLit L m = true → ∃ a b, m = a ++ L ++ b := by
  intro m
  induction m with
  | nil =>
    intro h
    simp only [reMatchDotStarLit, startsWithL_iff] at h
    obtain ⟨t, ht⟩ := h
    exact ⟨[], t, ht⟩
  | cons c rest ih =>
    intro h
    simp only [reMatchDotStarLit, Bool.or_eq_true, Bool.and_eq_true] at h
    rcases h with h | ⟨-, h⟩
    · obtain ⟨t, ht⟩ := (startsWithL_iff L _).mp h
      exact ⟨[], t, ht⟩
    · obtain ⟨a, b, hab⟩ := ih h
      exact ⟨c :: a, b, by simp [hab]⟩

/-- An anchored match succeeds whenever `L` is a starting segment. -/
theorem reMatchDotStarLit_of_startsWith (L m : List Char)
    (h : startsWithL L m = true) : reMatchDotStarLit L m = true := by
  cases m with
  | nil => simpa [reMatchDotStarLit] using h
  | cons c rest => simp [reMatchDotStarLit, h]

/-- A search succeeds whenever an anchored match succeeds at the start. -/
theorem reSearchDotStarLit_of_reMatch (L s : List Char)
    (h : reMatchDotStarLit L s = true) : reSearchDotStarLit L s = true := by
  cases s with
  | nil => simpa [reSearchDotStarLit] using h
  | cons c rest => simp [reSearchDotStarLit, h]

/-- Regex search of `".*" ++ L` succeeds exactly when `L` occurs somewhere
inside `s`: the `.*` prefix is redundant for an unanchored search, which
accepts any string containing `L`, not only those ending in `L`. -/
theorem reSearchDotStarLit_iff (L : List Char) : ∀ s : List Char,
    reSearchDotStarLit L s = true ↔ ∃ a b, s = a ++ L ++ b := by
  intro s
  constructor
  · induction s with
    | nil =>
      intro h
      simp only [reSearchDotStarLit] at h
      exact reMatchDotStarLit_occurrence L [] h
    | cons c rest ih =>
      intro h
      simp only [reSearchDotStarLit, Bool.or_eq_true] at h
      rcases h with h | h
      · exact reMatchDotStarLit_occurrence L _ h
      · obtain ⟨a, b, hab⟩ := ih h
        exact ⟨c :: a, b, by simp [hab]⟩
  · rintro ⟨a, b, rfl⟩
    induction a with
    | nil =>
      apply reSearchDotStarLit_of_reMatch
      apply reMatchDotStarLit_of_startsWith
      exact (startsWithL_iff L _).mpr ⟨b, by simp⟩
    | cons c a ih =>
      simp only [List.cons_append, reSearchDotStarLit, Bool.or_eq_true]
      exact Or.inr ih

/-- Check that `L` is an ending segment of `s`. -/
def endsWithL (L s : List Char) : Bool :=
  decide (L.length ≤ s.length) && (s.drop (s.length - L.length) == L)

/-- A successful `endsWithL` is exactly a decomposition `s = a ++ L`. -/
theorem endsWithL_iff (L s : List Char) :
    endsWithL L s = true ↔ ∃ a, s = a ++ L := by
  constructor
  · intro h
    simp only [endsWithL, Bool.and_eq_true, decide_eq_true_eq, beq_iff_eq] at h
    refine ⟨s.take (s.length - L.length), ?_⟩
    calc s = s.take (s.length - L.length) ++ s.drop (s.length - L.length) :=
          (List.take_append_drop _ _).symm
      _ = s.take (s.length - L.length) ++ L := by rw [h.2]
  · rintro ⟨a, rfl⟩
    have hlen : (a ++ L).length - L.length = a.length := by simp
    simp [endsWithL, hlen, List.drop_left]

/-- The steps a run completes always form an initial segment of the list:
no step is skipped and no step runs out of order. -/
theorem runFrom_take (env : Env) : ∀ (l : List Step) (i : Nat) (fs : Fs),
    ∃ k, k ≤ l.length ∧ (runFrom env i l fs).completed = l.take k := by
  intro l
  induction l with
  | nil =>
    intro i fs
    exact ⟨0, by simp, by simp [runFrom]⟩
  | cons s rest ih =>
    intro i fs
    cases h : stepSucceeds env i s with
    | true =>
      obtain ⟨k, hk, hc⟩ := ih (i + 1) (applyStep env i s fs)
      exact ⟨k + 1, by simpa using hk, by simp [runFrom, h, hc]⟩
    | false =>
      exact ⟨0, by simp, by simp [runFrom, h]⟩

/-- A run passes exactly when every step of the list succeeds at its
position. -/
theorem runFrom_passed_iff (env : Env) : ∀ (l : List Step) (i : Nat) (fs : Fs),
    (runFrom env i l fs).passed = true ↔
      ∀ j, j < l.length → stepSucceeds env (i + j) (l.getD j (Step.goto "")) = true := by
  intro l
  induction l with
  | nil =>
    intro i fs
    simp [runFrom]
  | cons s rest ih =>
    intro i fs
    cases h : stepSucceeds env i s with
    | true =>
      have hrun : (runFrom env i (s :: rest) fs).passed
          = (runFrom env (i + 1) rest (applyStep env i s fs)).passed := by
        simp [runFrom, h]
      rw [hrun, ih]
      constructor
      · intro hall j hj
        cases j with
        | zero => simpa using h
        | succ j =>
          have harith : i + (j + 1) = (i + 1) + j := by omega
          rw [harith]
          have := hall j (by simpa using hj)
          simpa using this
      · intro hall j hj
        have harith : (i + 1) + j = i + (j + 1) := by omega
        rw [harith]
        have := hall (j + 1) (by simpa using hj)
        simpa using this
    | false =>
      have hrun : (runFrom env i (s :: rest) fs).passed = false := by
        simp [runFrom, h]
      rw [hrun]
      simp only [Bool.false_eq_true, false_iff, not_forall]
      refine ⟨0, by simp, ?_⟩
      simpa using Bool.false_ne_true ∘ (h ▸ ·)

/-- A run passes exactly when it completed the whole list. -/
theorem runFrom_passed_iff_completed (env : Env) : ∀ (l : List Step) (i : Nat) (fs : Fs),
    (runFrom env i l fs).passed = true ↔ (runFrom env i l fs).completed = l := by
  intro l
  induction l with
  | nil =>
    intro i fs
    simp [runFrom]
  | cons s rest ih =>
    intro i fs
    cases h : stepSucceeds env i s with
    | true => simp [runFrom, h, ih (i + 1) (applyStep env i s fs)]
    | false => simp [runFrom, h]

/-- If the step at position `k` fails and every earlier step succeeds, the
run completes exactly the first `k` steps and does not pass. -/
theorem runFrom_firstFail (env : Env) : ∀ (l : List Step) (i : Nat) (fs : Fs) (k : Nat),
    k < l.length →
    stepSucceeds env (i + k) (l.getD k (Step.goto "")) = false →
    (∀ j, j < k → stepSucceeds env (i + j) (l.getD j (Step.goto "")) = true) →
    (runFrom env i l fs).completed = l.take k ∧ (runFrom env i l fs).passed = false := by
  intro l
  induction l with
  | nil =>
    intro i fs k hk
    simp at hk
  | cons s rest ih =>
    intro i fs k hk hfail hpre
    cases k with
    | zero =>
      have h0 : stepSucceeds env i s = false := by simpa using hfail
      simp [runFrom, h0]
    | succ k =>
      have h0 : stepSucceeds env i s = true := by
        simpa using hpre 0 (Nat.succ_pos k)
      have harith : i + (k + 1) = (i + 1) + k := by omega
      have hfail' : stepSucceeds env ((i + 1) + k) (rest.getD k (Step.goto "")) = false := by
        rw [← harith]
        simpa using hfail
      have hpre' : ∀ j, j < k →
          stepSucceeds env ((i + 1) + j) (rest.getD j (Step.goto "")) = true := by
        intro j hj
        have harith2 : (i + 1) + j = i + (j + 1) := by omega
        rw [harith2]
        simpa using hpre (j + 1) (by omega)
      obtain ⟨hc, hp⟩ := ih (i + 1) (applyStep env i s fs) k (by simpa using hk) hfail' hpre'
      refine ⟨?_, ?_⟩
      · simp [runFrom, h0, hc]
      · simp [runFrom, h0, hp]

/-- Only the screenshot call touches the file system. -/
theorem applyStep_not_shot (env : Env) (i : Nat) (s : Step) (fs : Fs)
    (h : isShot s = false) : applyStep env i s fs = fs := by
  cases s <;> simp_all [isShot, applyStep]

/-- A run none of whose completed steps is the screenshot call leaves the
file system exactly as it found it. -/
theorem runFrom_files_unchanged (env : Env) : ∀ (l : List Step) (i : Nat) (fs : Fs),
    (runFrom env i l fs).completed.all (fun s => !isShot s) = true →
    (runFrom env i l fs).files = fs := by
  intro l
  induction l with
  | nil =>
    intro i fs _
    simp [runFrom]
  | cons s rest ih =>
    intro i fs hall
    cases h : stepSucceeds env i s with
    | false => simp [runFrom, h]
    | true =>
      have hc : (runFrom env i (s :: rest) fs).completed
          = s :: (runFrom env (i + 1) rest (applyStep env i s fs)).completed := by
        simp [runFrom, h]
      rw [hc] at hall
      simp only [List.all_cons, Bool.and_eq_true] at hall
      obtain ⟨hs, hrest⟩ := hall
      have hfs : applyStep env i s fs = fs :=
        applyStep_not_shot env i s fs (by simpa using hs)
      have hfiles : (runFrom env i (s :: rest) fs).files
          = (runFrom env (i + 1) rest (applyStep env i s fs)).files := by
        simp [runFrom, h]
      rw [hfiles, hfs]
      rw [hfs] at hrest
      exact ih (i + 1) fs hrest

/-- The cumulative file-system effect of completing a whole list of steps. -/
def applyAll (env : Env) : Nat → List Step → Fs → Fs
  | _, [], fs => fs
  | i, s :: rest, fs => applyAll env (i + 1) rest (applyStep env i s fs)

/-- A passing run's final file system is the cumulative effect of all its
steps. -/
theorem runFrom_files_of_passed (env : Env) : ∀ (l : List Step) (i : Nat) (fs : Fs),
    (runFrom env i l fs).passed = true →
    (runFrom env i l fs).files = applyAll env i l fs := by
  intro l
  induction l with
  | nil =>
    intro i fs _
    simp [runFrom, applyAll]
  | cons s rest ih =>
    intro i fs hp
    cases h : stepSucceeds env i s with
    | false => simp [runFrom, h] at hp
    | true =>
      have hfiles : (runFrom env i (s :: rest) fs).files
          = (runFrom env (i + 1) rest (applyStep env i s fs)).files := by
        simp [runFrom, h]
      rw [hfiles]
      have hp' : (runFrom env (i + 1) rest (applyStep env i s fs)).passed = true := by
        simpa [runFrom, h] using hp
      rw [ih (i + 1) (applyStep env i s fs) hp']
      simp [applyAll]

/-- Big-step execution relation for a run of the step list: one derivation
per run the sequential script can perform against a given application. -/
inductive Exec (env : Env) : Nat → List Step → Fs → Outcome → Prop where
  | done : ∀ i fs, Exec env i [] fs ⟨[], fs, true⟩
  | stepOk : ∀ i s rest fs o, stepSucceeds env i s = true →
      Exec env (i + 1) rest (applyStep env i s fs) o →
      Exec env i (s :: rest) fs ⟨s :: o.completed, o.files, o.passed⟩
  | stepFail : ∀ i s rest fs, stepSucceeds env i s = false →
      Exec env i (s :: rest) fs ⟨[], fs, false⟩

/-- Any two executions of the same step list against the same application
agree on pass/fail and on which steps completed, whatever file systems they
start from: the file system never feeds back into control flow. -/
theorem Exec_agree (env : Env) : ∀ {i : Nat} {l : List Step} {fs₁ : Fs} {o₁ : Outcome},
    Exec env i l fs₁ o₁ → ∀ {fs₂ : Fs} {o₂ : Outcome}, Exec env i l fs₂ o₂ →
    o₁.passed = o₂.passed ∧ o₁.completed = o₂.completed := by
  intro i l fs₁ o₁ h₁
  induction h₁ with
  | done i fs =>
    intro fs₂ o₂ h₂
    cases h₂ with
    | done => exact ⟨rfl, rfl⟩
  | stepOk i s rest fs o hs hrest ih =>
    intro fs₂ o₂ h₂
    cases h₂ with
    | stepOk _ _ _ _ o' hs' hrest' =>
      obtain ⟨hp, hc⟩ := ih hrest'
      exact ⟨hp, by rw [hc]⟩
    | stepFail _ _ _ _ hs' => rw [hs] at hs'; cases hs'
  | stepFail i s rest fs hs =>
    intro fs₂ o₂ h₂
    cases h₂ with
    | stepOk _ _ _ _ o' hs' hrest' => rw [hs] at hs'; cases hs'
    | stepFail => exact ⟨rfl, rfl⟩

/-- The function `runFrom` performs one execution in the sense of `Exec`. -/
theorem Exec_runFrom (env : Env) : ∀ (l : List Step) (i : Nat) (fs : Fs),
    Exec env i l fs (runFrom env i l fs) := by
  intro l
  induction l with
  | nil =>
    intro i fs
    exact Exec.done i fs
  | cons s rest ih =>
    intro i fs
    cases h : stepSucceeds env i s with
    | true =>
      have : runFrom env i (s :: rest) fs
          = ⟨s :: (runFrom env (i + 1) rest (applyStep env i s fs)).completed,
             (runFrom env (i + 1) rest (applyStep env i s fs)).files,
             (runFrom env (i + 1) rest (applyStep env i s fs)).passed⟩ := by
        simp [runFrom, h]
      rw [this]
      exact Exec.stepOk i s rest fs _ h (ih (i + 1) (applyStep env i s fs))
    | false =>
      have : runFrom env i (s :: rest) fs = ⟨[], fs, false⟩ := by
        simp [runFrom, h]
      rw [this]
      exact Exec.stepFail i s rest fs h

/-- Resource events of the entry point `main`: starting and stopping the
Playwright driver (the `with sync_playwright() as p:` block), launching and
closing the browser, and opening a page. -/
inductive REv where
  | startPW
  | launchBrowser (headless : Bool)
  | newPage
  | closeBrowser
  | stopPW
deriving DecidableEq, Repr

/-- Number of live browsers after a sequence of resource events.  Stopping
the Playwright driver (the context-manager exit) closes every browser it
launched, so `stopPW` resets the count to zero. -/
def liveBrowsersAux : Nat → List REv → Nat
  | n, [] => n
  | n, REv.startPW :: t => liveBrowsersAux n t
  | n, REv.launchBrowser _ :: t => liveBrowsersAux (n + 1) t
  | n, REv.newPage :: t => liveBrowsersAux n t
  | n, REv.closeBrowser :: t => liveBrowsersAux (n - 1) t
  | _, REv.stopPW :: t => liveBrowsersAux 0 t

/-- Number of live browsers after a trace. -/
def liveBrowsers (tr : List REv) : Nat := liveBrowsersAux 0 tr

/-- Number of live pages after a sequence of resource events.  Closing the
browser closes its pages, and stopping the driver closes everything. -/
def livePagesAux : Nat → List REv → Nat
  | n, [] => n
  | n, REv.startPW :: t => livePagesAux n t
  | n, REv.launchBrowser _ :: t => livePagesAux n t
  | n, REv.newPage :: t => livePagesAux (n + 1) t
  | _, REv.closeBrowser :: t => livePagesAux 0 t
  | _, REv.stopPW :: t => livePagesAux 0 t

/-- Number of live pages after a trace. -/
def livePages (tr : List REv) : Nat := livePagesAux 0 tr

/-- Resource trace of one run of `main` (source lines 35-39): enter the
`with sync_playwright()` block, launch one headless Chromium, open one
page, run `verify_profile_page`, and — only if it returned — call
`browser.close()`; the context-manager exit (`stopPW`) runs on every path,
also when an exception is propagating. -/
def mainTrace (env : Env) (fs : Fs) : List REv :=
  [REv.startPW, REv.launchBrowser true, REv.newPage]
    ++ (if (runVerify env fs).passed then [REv.closeBrowser] else [])
    ++ [REv.stopPW]

/-- The process environment `main` runs in: command-line arguments and
environment variables.  The script reads neither (`sys.argv` and
`os.environ` never occur in the source). -/
structure ProcEnv where
  argv : List String
  envVars : String → Option String

/-- The step list the script performs as a function of the process
environment: constant, because the source consults no CLI flag,
environment variable, or configuration file. -/
def scriptOf (_pe : ProcEnv) : List Step :=
  verify_profile_page

/-- POSIX path resolution: a path is absolute exactly when it starts with a
slash; a relative path is resolved against the current working directory. -/
def isAbsolutePath (p : String) : Bool :=
  match p.toList with
  | '/' :: _ => true
  | _ => false

/-- Where the operating system places a file written at path `p` by a
process whose current working directory is `cwd`. -/
def resolvePath (cwd p : String) : String :=
  if isAbsolutePath p then p else cwd ++ "/" ++ p

/-- An application under which every interaction succeeds and the page is
at a URL satisfying both URL assertions: a fully working target. -/
def envAll : Env :=
  ⟨fun _ _ => true, fun _ => "http://localhost:3000/dashboard/profile", fun _ => 1⟩

/-- An application identical to `envAll` except that the "Profile" menu
item is absent: the `menuitem` click at position 6 fails with a locator
error. -/
def envNoProfileItem : Env :=
  ⟨fun _ s => !(s == Step.clickByRole "menuitem" "Profile"),
   fun _ => "http://localhost:3000/dashboard/profile", fun _ => 1⟩

/-- An application whose page settles on a URL that merely contains
`/dashboard` without ending in it. -/
def envDashMid : Env :=
  ⟨fun _ _ => true, fun _ => "http://localhost:3000/dashboard/home", fun _ => 0⟩

/-- The empty file system. -/
def fs0 : Fs := fun _ => none

/-- A file system that already holds content `0` at the screenshot path. -/
def fsPre : Fs :=
  fun q => if q = "jules-scratch/verification/profile_page.png" then some 0 else none

/-- C1: on every run of the entry point — whether `verify_profile_page`
completes or fails at any step — the browser launched at the start is no
longer live when the process exits: `browser.close()` runs on success, and
the `with sync_playwright()` context-manager exit runs on every path and
closes every browser the driver launched. -/
theorem browser_released_on_all_paths (env : Env) (fs : Fs) :
    REv.launchBrowser true ∈ mainTrace env fs ∧
    liveBrowsers (mainTrace env fs) = 0 ∧ livePages (mainTrace env fs) = 0 := by
  cases h : (runVerify env fs).passed <;>
    simp [mainTrace, h, liveBrowsers, livePages, liveBrowsersAux, livePagesAux]

/-- C2 counterexample: the capture the script performs on a successful run
is `page.screenshot(path=...)` with `full_page` left at its default
`False`, so the screenshot is viewport-only, not full-page; no full-page
screenshot call occurs anywhere in the script. -/
theorem screenshot_not_full_page_cex :
    (runVerify envAll fs0).completed.getLast?
      = some (Step.screenshot "jules-scratch/verification/profile_page.png" false) ∧
    Step.screenshot "jules-scratch/verification/profile_page.png" true ∉ verify_profile_page := by
  decide

/-- C2 amended: on a successful run, the final capture step takes a
viewport screenshot (`full_page` is not passed and defaults to `False`,
so the capture is not full-page) and persists it to the fixed path
`jules-scratch/verification/profile_page.png`, overwriting whatever the
file system previously held at that path. -/
theorem screenshot_viewport_fixed_path (env : Env) (fs : Fs)
    (h : (runVerify env fs).passed = true) :
    Step.screenshot "jules-scratch/verification/profile_page.png" false
      ∈ (runVerify env fs).completed ∧
    (runVerify env fs).files "jules-scratch/verification/profile_page.png"
      = some (env.shot 9) := by
  have hc : (runVerify env fs).completed = verify_profile_page :=
    (runFrom_passed_iff_completed env verify_profile_page 0 fs).mp h
  constructor
  · rw [hc]
    decide
  · have hfiles : (runVerify env fs).files = applyAll env 0 verify_profile_page fs :=
      runFrom_files_of_passed env verify_profile_page 0 fs h
    rw [hfiles]
    simp [verify_profile_page, page_screenshot, applyAll, applyStep]

/-- C2 amended witness: a concrete fully-working application on which the
run passes, the viewport screenshot step completes, and the file at the
fixed path is overwritten. -/
theorem screenshot_viewport_fixed_path_witness :
    Step.screenshot "jules-scratch/verification/profile_page.png" false
      ∈ (runVerify envAll fsPre).completed ∧
    (runVerify envAll fsPre).files "jules-scratch/verification/profile_page.png"
      = some (envAll.shot 9) :=
  screenshot_viewport_fixed_path envAll fsPre (by decide)

/-- C3 counterexample: at the URL
`http://localhost:3000/dashboard/home`, which contains `/dashboard` but
does not end in it, the post-login URL assertion nevertheless succeeds —
the accepted URL set is not restricted to URLs ending in the suffix. -/
theorem url_assertion_accepts_nonsuffix_cex :
    stepSucceeds envDashMid 4 (Step.expectUrl ".*/dashboard") = true ∧
    endsWithL "/dashboard".toList (envDashMid.pageUrl 4).toList = false := by
  decide

/-- C3 amended: the post-login URL assertion succeeds exactly when the
current URL contains `/dashboard` as a substring, and the post-navigation
URL assertion succeeds exactly when the current URL contains `/profile` as
a substring: the regex search is unanchored, so the `.*` prefix is
redundant and URLs merely containing the suffix are accepted. -/
theorem url_assertions_accept_containing (env : Env) (i : Nat) :
    (stepSucceeds env i (Step.expectUrl ".*/dashboard") = true ↔
      ∃ a b, (env.pageUrl i).toList = a ++ "/dashboard".toList ++ b) ∧
    (stepSucceeds env i (Step.expectUrl ".*/profile") = true ↔
      ∃ a b, (env.pageUrl i).toList = a ++ "/profile".toList ++ b) := by
  constructor
  · have h0 : stepSucceeds env i (Step.expectUrl ".*/dashboard")
        = reSearchDotStarLit (dotStarLit ".*/dashboard") (env.pageUrl i).toList := rfl
    have h2 : dotStarLit ".*/dashboard" = "/dashboard".toList := by decide
    rw [h0, h2]
    exact reSearchDotStarLit_iff _ _
  · have h0 : stepSucceeds env i (Step.expectUrl ".*/profile")
        = reSearchDotStarLit (dotStarLit ".*/profile") (env.pageUrl i).toList := rfl
    have h2 : dotStarLit ".*/profile" = "/profile".toList := by decide
    rw [h0, h2]
    exact reSearchDotStarLit_iff _ _

/-- C4: the script executes its operations in exactly the fixed source
order — the steps a run completes are always an initial segment of the
fixed list, the run passes exactly when it completed the whole list, and if
the step at position `i` fails after all earlier steps succeeded then
exactly the first `i` steps were executed and nothing after. -/
theorem script_strictly_sequential (env : Env) (fs : Fs) :
    (∃ k, k ≤ verify_profile_page.length ∧
        (runVerify env fs).completed = verify_profile_page.take k) ∧
    ((runVerify env fs).passed = true ↔
        (runVerify env fs).completed = verify_profile_page) ∧
    (∀ i, i < verify_profile_page.length →
      stepSucceeds env i (stepAt i) = false →
      (∀ j, j < i → stepSucceeds env j (stepAt j) = true) →
      (runVerify env fs).completed = verify_profile_page.take i ∧
        (runVerify env fs).passed = false) := by
  refine ⟨runFrom_take env _ 0 fs, runFrom_passed_iff_completed env _ 0 fs, ?_⟩
  intro i hi hfail hpre
  have hfail' : stepSucceeds env (0 + i)
      (verify_profile_page.getD i (Step.goto "")) = false := by
    simpa [stepAt] using hfail
  have hpre' : ∀ j, j < i → stepSucceeds env (0 + j)
      (verify_profile_page.getD j (Step.goto "")) = true := by
    intro j hj
    simpa [stepAt] using hpre j hj
  exact runFrom_firstFail env _ 0 fs i hi hfail' hpre'

/-- C4 witness: against an application whose "Profile" menu item is
missing, step 6 fails, exactly the first six steps execute, and the run
does not pass. -/
theorem script_strictly_sequential_witness :
    (runVerify envNoProfileItem fs0).completed = verify_profile_page.take 6 ∧
      (runVerify envNoProfileItem fs0).passed = false :=
  (script_strictly_sequential envNoProfileItem fs0).2.2 6 (by decide) (by decide)
    (by decide)

/-- C5: no failure is caught anywhere, so the process exits zero exactly
when every step of the script succeeds, and exits non-zero exactly when
some step fails. -/
theorem exit_zero_iff_all_steps (env : Env) (fs : Fs) :
    (mainExit env fs = 0 ↔ allStepsSucceed env) ∧
    (mainExit env fs ≠ 0 ↔ ¬ allStepsSucceed env) := by
  have hpass : (runVerify env fs).passed = true ↔ allStepsSucceed env := by
    rw [runVerify, runFrom_passed_iff]
    constructor
    · intro h i hi
      simpa [stepAt] using h i hi
    · intro h j hj
      simpa [stepAt] using h j hj
  have h1 : mainExit env fs = 0 ↔ allStepsSucceed env := by
    rw [← hpass]
    cases h : (runVerify env fs).passed <;> simp [mainExit, h]
  exact ⟨h1, not_congr h1⟩

/-- C6: if any step before the capture step fails — the first failure
happens at any position `i` among the nine operations preceding the
screenshot (in particular `i = 6` when the "Profile" menu item is absent
and its click raises a locator error) — then no screenshot operation is
ever executed and the file system is left exactly as it was, at every
path. -/
theorem pre_capture_failure_no_screenshot (env : Env) (fs : Fs) (i : Nat)
    (hi : i < 9)
    (hfail : stepSucceeds env i (stepAt i) = false)
    (hpre : ∀ j, j < i → stepSucceeds env j (stepAt j) = true) :
    (∀ p fp, Step.screenshot p fp ∉ (runVerify env fs).completed) ∧
    (runVerify env fs).files = fs := by
  have hfail' : stepSucceeds env (0 + i)
      (verify_profile_page.getD i (Step.goto "")) = false := by
    simpa [stepAt] using hfail
  have hpre' : ∀ j, j < i → stepSucceeds env (0 + j)
      (verify_profile_page.getD j (Step.goto "")) = true := by
    intro j hj
    simpa [stepAt] using hpre j hj
  obtain ⟨hc, hp⟩ :=
    runFrom_firstFail env verify_profile_page 0 fs i (by simp [verify_profile_page]; omega)
      hfail' hpre'
  have hcompleted : (runVerify env fs).completed = verify_profile_page.take i := hc
  have hall : (verify_profile_page.take i).all (fun s => !isShot s) = true := by
    interval_cases i <;> decide
  constructor
  · intro p fp hmem
    rw [hcompleted] at hmem
    have := List.all_eq_true.mp hall _ hmem
    simp [isShot] at this
  · have hall' : (runVerify env fs).completed.all (fun s => !isShot s) = true := by
      rw [hcompleted]
      exact hall
    exact runFrom_files_unchanged env verify_profile_page 0 fs hall'

/-- C6 witness: the concrete application missing the "Profile" menu item
fails first at position 6 — before the capture step — executes no
screenshot operation and leaves the file system untouched. -/
theorem pre_capture_failure_no_screenshot_witness :
    (∀ p fp, Step.screenshot p fp ∉ (runVerify envNoProfileItem fs0).completed) ∧
    (runVerify envNoProfileItem fs0).files = fs0 :=
  pre_capture_failure_no_screenshot envNoProfileItem fs0 6 (by decide) (by decide)
    (by decide)

/-- C7: the script's operations are the same fixed literals on every run —
navigation to `http://localhost:3000/admin/login` (under base URL
`http://localhost:3000`), the Email Address field filled with
`admin@gorectus.local`, the Password field filled with `admin123` — and
they are constant in the process environment, since no CLI argument or
environment variable is ever consulted. -/
theorem fixed_literal_inputs :
    (∀ pe₁ pe₂ : ProcEnv, scriptOf pe₁ = scriptOf pe₂) ∧
    verify_profile_page[0]? = some (Step.goto "http://localhost:3000/admin/login") ∧
    verify_profile_page[1]?
      = some (Step.fillByLabel "Email Address" "admin@gorectus.local") ∧
    verify_profile_page[2]? = some (Step.fillByLabel "Password" "admin123") ∧
    startsWithL "http://localhost:3000".toList
      "http://localhost:3000/admin/login".toList = true :=
  ⟨fun _ _ => rfl, by decide, by decide, by decide, by decide⟩

/-- C8: every run of `main` launches exactly one browser, in headless mode,
opens exactly one page, and at every point of the run at most one browser
and at most one page are live. -/
theorem single_browser_single_page (env : Env) (fs : Fs) :
    (mainTrace env fs).count (REv.launchBrowser true) = 1 ∧
    (mainTrace env fs).count (REv.launchBrowser false) = 0 ∧
    (mainTrace env fs).count REv.newPage = 1 ∧
    ∀ n, liveBrowsers ((mainTrace env fs).take n) ≤ 1 ∧
         livePages ((mainTrace env fs).take n) ≤ 1 := by
  cases h : (runVerify env fs).passed
  case false =>
    have htr : mainTrace env fs
        = [REv.startPW, REv.launchBrowser true, REv.newPage, REv.stopPW] := by
      simp [mainTrace, h]
    rw [htr]
    refine ⟨by decide, by decide, by decide, ?_⟩
    intro n
    rcases n with _ | _ | _ | _ | n <;>
      simp [liveBrowsers, livePages, liveBrowsersAux, livePagesAux, List.take]
  case true =>
    have htr : mainTrace env fs
        = [REv.startPW, REv.launchBrowser true, REv.newPage,
           REv.closeBrowser, REv.stopPW] := by
      simp [mainTrace, h]
    rw [htr]
    refine ⟨by decide, by decide, by decide, ?_⟩
    intro n
    rcases n with _ | _ | _ | _ | _ | n <;>
      simp [liveBrowsers, livePages, liveBrowsersAux, livePagesAux, List.take]

/-- C9: two runs of the script against the same unchanged application agree
on the pass/fail outcome and on exactly which steps completed (hence on the
failing step, if any), whatever file contents each run starts from: the
outcome is a function of the application alone. -/
theorem run_deterministic (env : Env) (fs₁ fs₂ : Fs) (o₁ o₂ : Outcome)
    (h₁ : Exec env 0 verify_profile_page fs₁ o₁)
    (h₂ : Exec env 0 verify_profile_page fs₂ o₂) :
    o₁.passed = o₂.passed ∧ o₁.completed = o₂.completed :=
  Exec_agree env h₁ h₂

/-- C9 witness: two successive runs against the concrete working
application — the second starting from the file system the first produced —
agree on outcome and completed steps. -/
theorem run_deterministic_witness :
    (runVerify envAll fs0).passed = (runVerify envAll fsPre).passed ∧
    (runVerify envAll fs0).completed = (runVerify envAll fsPre).completed :=
  run_deterministic envAll fs0 fsPre (runVerify envAll fs0) (runVerify envAll fsPre)
    (Exec_runFrom envAll verify_profile_page 0 fs0)
    (Exec_runFrom envAll verify_profile_page 0 fsPre)

/-- C10: the path the screenshot call passes is the relative literal
`jules-scratch/verification/profile_page.png`; it is not absolute, so the
artifact's actual location resolves against the process's current working
directory and differs between runs started from different directories. -/
theorem screenshot_path_cwd_relative :
    verify_profile_page[9]?
      = some (Step.screenshot "jules-scratch/verification/profile_page.png" false) ∧
    isAbsolutePath "jules-scratch/verification/profile_page.png" = false ∧
    (∀ cwd : String, resolvePath cwd "jules-scratch/verification/profile_page.png"
      = cwd ++ "/" ++ "jules-scratch/verification/profile_page.png") ∧
    resolvePath "/srv/run-a" "jules-scratch/verification/profile_page.png"
      ≠ resolvePath "/srv/run-b" "jules-scratch/verification/profile_page.png" := by
  refine ⟨by decide, by decide, ?_, by decide⟩
  intro cwd
  have h : isAbsolutePath "jules-scratch/verification/profile_page.png" = false := by
    decide
  simp [resolvePath, h]
